import Mathlib

/-!
Shallow embedding of the view-tracking batching pipeline and the comment
subsystem of the document-archive web application.

Database tables are modelled as Lean lists:
  view_queue      : List QueuedView   (rows of {document_id, queued_at})
  document_views  : List ViewRecord   (rows of {document_id, viewed_at})
SQL statements that can raise are modelled by an explicit fault parameter;
a JavaScript exception is an Except error or a DrainResult.error outcome.
-/

namespace Site

/-- Row of the view_queue table: {document identifier, enqueue timestamp}. -/
structure QueuedView where
  document_id : String
  queued_at : Nat
  deriving DecidableEq, Repr

/-- Row of the document_views table: {document identifier, view timestamp}. -/
structure ViewRecord where
  document_id : String
  viewed_at : Nat
  deriving DecidableEq, Repr

/-- Shared database state touched by the pipeline. -/
structure DB where
  view_queue : List QueuedView
  document_views : List ViewRecord
  deriving DecidableEq, Repr

/-- Embedding of the SELECT list of the copy statement:
INSERT INTO document_views (document_id, viewed_at)
SELECT document_id, queued_at FROM view_queue. -/
def copyRow (q : QueuedView) : ViewRecord :=
  { document_id := q.document_id, viewed_at := q.queued_at }

/-- Order of the copy statement: ORDER BY queued_at ASC. -/
def byQueuedAsc (a b : QueuedView) : Prop :=
  a.queued_at ≤ b.queued_at

instance : DecidableRel byQueuedAsc :=
  fun a b => Nat.decLe a.queued_at b.queued_at

instance : IsTotal QueuedView byQueuedAsc :=
  ⟨fun a b => Nat.le_total a.queued_at b.queued_at⟩

instance : IsTrans QueuedView byQueuedAsc :=
  ⟨fun _ _ _ => Nat.le_trans⟩

/-- Rows of view_queue in the order the copy statement selects them. -/
def sortQueue (l : List QueuedView) : List QueuedView :=
  List.insertionSort byQueuedAsc l

/-- Effect on the database of the copy statement of the drain. -/
def insertViews (db : DB) : DB :=
  { db with document_views := db.document_views ++ (sortQueue db.view_queue).map copyRow }

/-- Fault injection point for a single drain run: which of the three SQL
statements (count, insert, delete) raises, or a crash of the process after
the insert committed and before the delete ran. -/
inductive Fault
  | free
  | atCount
  | atInsert
  | afterInsert
  | atDelete
  deriving DecidableEq, Repr

/-- Outcome of processViewQueue: a returned {processed: n}, a rethrown
exception, or a process crash (no value returned at all). -/
inductive DrainResult
  | ok (processed : Nat)
  | error
  | crashed
  deriving DecidableEq, Repr

/-- Embedding of processViewQueue from src/app/actions.ts: count the
pending rows; if zero return {processed: 0}; otherwise copy all rows into
document_views (preserving queued_at as viewed_at) and then delete all
rows from view_queue.  Any statement error is rethrown. -/
def processViewQueue (db : DB) (f : Fault) : DB × DrainResult :=
  if f = Fault.atCount then (db, DrainResult.error)
  else if db.view_queue.length = 0 then (db, DrainResult.ok 0)
  else if f = Fault.atInsert then (db, DrainResult.error)
  else if f = Fault.afterInsert then (insertViews db, DrainResult.crashed)
  else if f = Fault.atDelete then (insertViews db, DrainResult.error)
  else ({ view_queue := [], document_views := (insertViews db).document_views },
        DrainResult.ok db.view_queue.length)

/-- Number of document_views rows for a given document. -/
def countViews (d : String) (db : DB) : Nat :=
  (db.document_views.filter (fun v => v.document_id == d)).length

/-- Number of view_queue rows for a given document. -/
def countQueued (d : String) (db : DB) : Nat :=
  (db.view_queue.filter (fun q => q.document_id == d)).length

lemma sortQueue_perm (l : List QueuedView) : (sortQueue l).Perm l :=
  List.perm_insertionSort byQueuedAsc l

lemma insertViews_views_perm (db : DB) :
    (insertViews db).document_views.Perm
      (db.document_views ++ db.view_queue.map copyRow) := by
  unfold insertViews
  exact List.Perm.append_left _ ((sortQueue_perm db.view_queue).map copyRow)

lemma countViews_insertViews (d : String) (db : DB) :
    countViews d (insertViews db) = countViews d db + countQueued d db := by
  unfold countViews countQueued
  have hperm := (insertViews_views_perm db).filter (fun v => v.document_id == d)
  rw [hperm.length_eq, List.filter_append, List.length_append]
  congr 1
  rw [List.filter_map, List.length_map]
  congr 1

lemma copyRow_injective : Function.Injective copyRow := by
  intro a b hab
  cases a
  cases b
  simpa [copyRow, ViewRecord.mk.injEq, QueuedView.mk.injEq] using hab

lemma count_copy_sortQueue (q : QueuedView) (l : List QueuedView) :
    ((sortQueue l).map copyRow).count (copyRow q) = l.count q := by
  rw [List.count_map_of_injective _ copyRow copyRow_injective]
  exact (sortQueue_perm l).count_eq q

lemma processViewQueue_free_eq (db : DB) (h : db.view_queue.length ≠ 0) :
    processViewQueue db Fault.free =
      ({ view_queue := [], document_views := (insertViews db).document_views },
       DrainResult.ok db.view_queue.length) := by
  simp [processViewQueue, h]

lemma processViewQueue_afterInsert_eq (db : DB) (h : db.view_queue.length ≠ 0) :
    processViewQueue db Fault.afterInsert = (insertViews db, DrainResult.crashed) := by
  simp [processViewQueue, h]

/-- C1: at-least-once delivery of a single drain.  For every document
identifier and every database state, if processViewQueue runs to completion
(returning {processed: n}), the number of document_views rows for that
document afterwards is at least the number of view_queue rows for it that
were enqueued before the drain started. -/
theorem processViewQueue_at_least_once (d : String) (db : DB) (f : Fault) (n : Nat)
    (h : (processViewQueue db f).2 = DrainResult.ok n) :
    countQueued d db ≤ countViews d (processViewQueue db f).1 := by
  by_cases h1 : f = Fault.atCount
  · simp [processViewQueue, h1] at h
  · by_cases h2 : db.view_queue.length = 0
    · have hq : db.view_queue = [] := List.length_eq_zero.mp h2
      simp [processViewQueue, h1, h2, countQueued, hq]
    · by_cases h3 : f = Fault.atInsert
      · simp [processViewQueue, h1, h2, h3] at h
      · by_cases h4 : f = Fault.afterInsert
        · simp [processViewQueue, h1, h2, h3, h4] at h
        · by_cases h5 : f = Fault.atDelete
          · simp [processViewQueue, h1, h2, h3, h4, h5] at h
          · simp only [processViewQueue, if_neg h1, if_neg h2, if_neg h3, if_neg h4, if_neg h5]
            have hcv : countViews d
                { view_queue := ([] : List QueuedView),
                  document_views := (insertViews db).document_views } =
                countViews d (insertViews db) := rfl
            rw [hcv, countViews_insertViews]
            omega

theorem processViewQueue_at_least_once_witness :
    (processViewQueue (DB.mk [QueuedView.mk "d" 1] []) Fault.free).2 = DrainResult.ok 1 ∧
    countQueued "d" (DB.mk [QueuedView.mk "d" 1] []) ≤
      countViews "d" (processViewQueue (DB.mk [QueuedView.mk "d" 1] []) Fault.free).1 :=
  ⟨by decide,
   processViewQueue_at_least_once "d" (DB.mk [QueuedView.mk "d" 1] []) Fault.free 1 (by decide)⟩

/-- C2: draining an empty queue is a no-op.  Whenever view_queue holds zero
rows, processViewQueue returns {processed: 0} and leaves the database
unchanged, for every fault point other than a failure of the count
statement itself. -/
theorem processViewQueue_empty_noop (db : DB) (f : Fault)
    (hq : db.view_queue = []) (hf : f ≠ Fault.atCount) :
    processViewQueue db f = (db, DrainResult.ok 0) := by
  simp [processViewQueue, hf, hq]

theorem processViewQueue_empty_noop_witness :
    (DB.mk [] []).view_queue = [] ∧ Fault.free ≠ Fault.atCount ∧
    processViewQueue (DB.mk [] []) Fault.free = (DB.mk [] [], DrainResult.ok 0) :=
  ⟨rfl, by decide, processViewQueue_empty_noop (DB.mk [] []) Fault.free rfl (by decide)⟩

/-- C3: the copy step of a completed drain transfers every pending row,
with the same document_id and with viewed_at equal to the original
queued_at, and the delete step then empties the queue; the returned
processed count is the number of pending rows. -/
theorem processViewQueue_copies_and_deletes (db : DB) (h : db.view_queue ≠ []) :
    (processViewQueue db Fault.free).2 = DrainResult.ok db.view_queue.length ∧
    (processViewQueue db Fault.free).1.view_queue = [] ∧
    (processViewQueue db Fault.free).1.document_views.Perm
      (db.document_views ++ db.view_queue.map copyRow) := by
  have hlen2 : db.view_queue.length ≠ 0 := fun hz => h (List.length_eq_zero.mp hz)
  rw [processViewQueue_free_eq db hlen2]
  exact ⟨rfl, rfl, insertViews_views_perm db⟩

theorem processViewQueue_copies_and_deletes_witness :
    (DB.mk [QueuedView.mk "d" 1] []).view_queue ≠ [] ∧
    (processViewQueue (DB.mk [QueuedView.mk "d" 1] []) Fault.free).2 =
      DrainResult.ok (DB.mk [QueuedView.mk "d" 1] []).view_queue.length ∧
    (processViewQueue (DB.mk [QueuedView.mk "d" 1] []) Fault.free).1.view_queue = [] ∧
    (processViewQueue (DB.mk [QueuedView.mk "d" 1] []) Fault.free).1.document_views.Perm
      ((DB.mk [QueuedView.mk "d" 1] []).document_views ++
        (DB.mk [QueuedView.mk "d" 1] []).view_queue.map copyRow) :=
  ⟨by decide, processViewQueue_copies_and_deletes (DB.mk [QueuedView.mk "d" 1] []) (by decide)⟩

/-- C4: the copy and the delete are separate statements, not one atomic
transaction.  A drain that crashes after the insert committed and before
the delete ran leaves every copied row still queued, and a subsequent
completed drain inserts a second ViewRecord for each of those rows, so
each queued row ends up double-counted. -/
theorem processViewQueue_crash_double_counts (db : DB) (h : db.view_queue ≠ []) :
    (processViewQueue db Fault.afterInsert).2 = DrainResult.crashed ∧
    (processViewQueue db Fault.afterInsert).1.view_queue = db.view_queue ∧
    (processViewQueue (processViewQueue db Fault.afterInsert).1 Fault.free).2 =
      DrainResult.ok db.view_queue.length ∧
    ∀ q ∈ db.view_queue,
      db.document_views.count (copyRow q) + 2 ≤
        (processViewQueue (processViewQueue db Fault.afterInsert).1
            Fault.free).1.document_views.count (copyRow q) := by
  have hlen : db.view_queue.length ≠ 0 := fun hz => h (List.length_eq_zero.mp hz)
  rw [processViewQueue_afterInsert_eq db hlen]
  have hq1 : (insertViews db).view_queue = db.view_queue := rfl
  have hlen1 : (insertViews db).view_queue.length ≠ 0 := by rw [hq1]; exact hlen
  rw [processViewQueue_free_eq (insertViews db) hlen1]
  refine ⟨rfl, rfl, by rw [hq1], ?_⟩
  intro q hmem
  have hviews : (insertViews (insertViews db)).document_views =
      (db.document_views ++ (sortQueue db.view_queue).map copyRow) ++
        (sortQueue db.view_queue).map copyRow := by
    simp [insertViews, hq1]
  have hcount1 : (1 : Nat) ≤ db.view_queue.count q := List.count_pos_iff.mpr hmem
  have hsort := count_copy_sortQueue q db.view_queue
  calc db.document_views.count (copyRow q) + 2
      ≤ db.document_views.count (copyRow q) + db.view_queue.count q + db.view_queue.count q := by
        omega
    _ = (insertViews (insertViews db)).document_views.count (copyRow q) := by
        rw [hviews, List.count_append, List.count_append, hsort]

theorem processViewQueue_crash_double_counts_witness :
    (DB.mk [QueuedView.mk "d" 1] []).view_queue ≠ [] ∧
    (∀ q ∈ (DB.mk [QueuedView.mk "d" 1] []).view_queue,
      (DB.mk [QueuedView.mk "d" 1] []).document_views.count (copyRow q) + 2 ≤
        (processViewQueue
            (processViewQueue (DB.mk [QueuedView.mk "d" 1] []) Fault.afterInsert).1
            Fault.free).1.document_views.count (copyRow q)) :=
  ⟨by decide,
   (processViewQueue_crash_double_counts (DB.mk [QueuedView.mk "d" 1] []) (by decide)).2.2.2⟩

/-- Outcome of the single INSERT INTO view_queue statement issued by
trackDocumentView: it either commits or raises. -/
inductive InsertOutcome
  | success
  | failure
  deriving DecidableEq, Repr

/-- Effect of the INSERT INTO view_queue (document_id) VALUES (...) statement;
queued_at defaults to the current time. -/
def insertViewQueueRow (db : DB) (docId : String) (now : Nat) (o : InsertOutcome) :
    Except String DB :=
  match o with
  | InsertOutcome.success =>
      Except.ok { db with view_queue := db.view_queue ++ [QueuedView.mk docId now] }
  | InsertOutcome.failure => Except.error "insert failed"

/-- Embedding of trackDocumentView from src/app/actions.ts: run the insert
inside try/catch; any error is swallowed (only logged) and the function
returns normally. -/
def trackDocumentView (db : DB) (docId : String) (now : Nat) (o : InsertOutcome) :
    Except String DB :=
  match insertViewQueueRow db docId now o with
  | Except.ok db2 => Except.ok db2
  | Except.error _ => Except.ok db

/-- JSON body returned by the cron route, with only the fields the route
ever sets. -/
structure JsonBody where
  success : Option Bool
  processed : Option Nat
  timestamp : Option Nat
  error : Option String
  deriving DecidableEq, Repr

/-- HTTP response produced by NextResponse.json(body, {status}). -/
structure HttpResponse where
  status : Nat
  body : JsonBody
  deriving DecidableEq, Repr

/-- JavaScript truthiness of process.env.CRON_SECRET: undefined and the
empty string are falsy. -/
def envTruthy : Option String → Bool
  | none => false
  | some s => s != ""

/-- Body of the cron GET route after the authorization check: await
processViewQueue, answer 200 with {success, processed, timestamp} on
success, 500 with {success: false, error} on a thrown error; a process
crash produces no response. -/
def runDrainRoute (db : DB) (f : Fault) (now : Nat) : DB × Option HttpResponse :=
  match processViewQueue db f with
  | (db2, DrainResult.ok n) =>
      (db2, some { status := 200,
                   body := { success := some true, processed := some n,
                             timestamp := some now, error := none } })
  | (db2, DrainResult.error) =>
      (db2, some { status := 500,
                   body := { success := some false, processed := none,
                             timestamp := none, error := some "Failed to process view queue" } })
  | (db2, DrainResult.crashed) => (db2, none)

/-- Embedding of the cron GET handler: if CRON_SECRET is truthy and the
authorization header differs from the string Bearer, a space and the
secret, answer 401 {error: Unauthorized}; otherwise run the drain. -/
def cronGET (secret auth : Option String) (db : DB) (f : Fault) (now : Nat) :
    DB × Option HttpResponse :=
  if envTruthy secret ∧ auth ≠ some ("Bearer " ++ secret.getD "") then
    (db, some { status := 401,
                body := { success := none, processed := none,
                          timestamp := none, error := some "Unauthorized" } })
  else runDrainRoute db f now

lemma processViewQueue_error_queue_intact (db : DB) (f : Fault)
    (h : (processViewQueue db f).2 = DrainResult.error) :
    (processViewQueue db f).1.view_queue = db.view_queue := by
  by_cases h1 : f = Fault.atCount
  · simp [processViewQueue, h1]
  · by_cases h2 : db.view_queue.length = 0
    · simp [processViewQueue, h1, h2]
    · by_cases h3 : f = Fault.atInsert
      · simp [processViewQueue, h1, h2, h3]
      · by_cases h4 : f = Fault.afterInsert
        · simp [processViewQueue, h1, h2, h3, h4] at h
        · by_cases h5 : f = Fault.atDelete
          · simp [processViewQueue, h1, h2, h3, h4, h5, insertViews]
          · simp [processViewQueue, h1, h2, h3, h4, h5] at h

/-- C5: drain failure propagates as a 500 with the queue intact.  If a
drain statement raises (processViewQueue rethrows, outcome error) and the
request passed the authorization check, the cron GET route answers status
500 with success false and an error message, and every view_queue row that
was pending when the drain started is still present. -/
theorem drain_failure_propagates_500 (secret auth : Option String) (db : DB) (f : Fault)
    (now : Nat)
    (herr : (processViewQueue db f).2 = DrainResult.error)
    (hauth : ¬(envTruthy secret ∧ auth ≠ some ("Bearer " ++ secret.getD ""))) :
    ∃ r, (cronGET secret auth db f now).2 = some r ∧ r.status = 500 ∧
      r.body.success = some false ∧ r.body.error ≠ none ∧
      (cronGET secret auth db f now).1.view_queue = db.view_queue := by
  have hq := processViewQueue_error_queue_intact db f herr
  have hcron : cronGET secret auth db f now =
      ((processViewQueue db f).1,
        some { status := 500,
               body := { success := some false, processed := none,
                         timestamp := none, error := some "Failed to process view queue" } }) := by
    unfold cronGET
    rw [if_neg hauth]
    unfold runDrainRoute
    rcases hp : processViewQueue db f with ⟨db2, r2⟩
    rw [hp] at herr
    cases r2
    · exact absurd herr (by simp)
    · rfl
    · exact absurd herr (by simp)
  rw [hcron]
  exact ⟨_, rfl, rfl, rfl, by simp, hq⟩

theorem drain_failure_propagates_500_witness :
    (processViewQueue (DB.mk [QueuedView.mk "d" 1] []) Fault.atCount).2 = DrainResult.error ∧
    ∃ r, (cronGET none none (DB.mk [QueuedView.mk "d" 1] []) Fault.atCount 9).2 = some r ∧
      r.status = 500 ∧ r.body.success = some false ∧ r.body.error ≠ none ∧
      (cronGET none none (DB.mk [QueuedView.mk "d" 1] []) Fault.atCount 9).1.view_queue =
        (DB.mk [QueuedView.mk "d" 1] []).view_queue :=
  ⟨by decide,
   drain_failure_propagates_500 none none (DB.mk [QueuedView.mk "d" 1] []) Fault.atCount 9
     (by decide) (by decide)⟩

/-- C6: enqueue never fails its caller.  For every document identifier,
time and outcome of the underlying insert (commit or raise),
trackDocumentView returns normally, never propagating an exception. -/
theorem trackDocumentView_never_throws (db : DB) (docId : String) (now : Nat)
    (o : InsertOutcome) :
    ∃ db2, trackDocumentView db docId now o = Except.ok db2 := by
  cases o
  · exact ⟨_, rfl⟩
  · exact ⟨db, rfl⟩

/-- C7 counterexample: CRON_SECRET set to the empty string is set, yet with
a missing (hence mismatching) authorization header the route does not
answer 401; JavaScript truthiness skips the check, the drain runs and
document_views changes. -/
theorem cronGET_empty_secret_not_unauthorized :
    ((cronGET (some "") none (DB.mk [QueuedView.mk "doc1" 3] []) Fault.free 7).2.map
        (fun r => r.status)) = some 200 ∧
    (cronGET (some "") none (DB.mk [QueuedView.mk "doc1" 3] []) Fault.free 7).1.document_views ≠
      (DB.mk [QueuedView.mk "doc1" 3] []).document_views := by
  exact ⟨rfl, by decide⟩

/-- C7 (amended): whenever CRON_SECRET is set to a non-empty string and the
authorization header is not exactly the string Bearer, a space and that
secret, the route answers 401 with an error message and does not run the
drain (the database is unchanged); when the secret is unset, or set to the
empty string (falsy, treated as unset), every request proceeds to the
drain. -/
theorem cronGET_bearer_auth (secret : String) (auth : Option String) (db : DB) (f : Fault)
    (now : Nat) (hs : secret ≠ "") (hauth : auth ≠ some ("Bearer " ++ secret)) :
    ((cronGET (some secret) auth db f now).1 = db ∧
      ∃ r, (cronGET (some secret) auth db f now).2 = some r ∧ r.status = 401 ∧
        r.body.error ≠ none) ∧
    (∀ a2, cronGET none a2 db f now = runDrainRoute db f now) ∧
    (∀ a2, cronGET (some "") a2 db f now = runDrainRoute db f now) := by
  refine ⟨?_, ?_, ?_⟩
  · have hcond : envTruthy (some secret) ∧
        auth ≠ some ("Bearer " ++ (some secret).getD "") := by
      constructor
      · simpa [envTruthy] using hs
      · simpa using hauth
    rw [cronGET, if_pos hcond]
    exact ⟨rfl, _, rfl, rfl, by simp⟩
  · intro a2
    simp [cronGET, envTruthy]
  · intro a2
    simp [cronGET, envTruthy]

theorem cronGET_bearer_auth_witness :
    ("s" : String) ≠ "" ∧ (none : Option String) ≠ some ("Bearer " ++ "s") ∧
    ((cronGET (some "s") none (DB.mk [QueuedView.mk "d" 1] []) Fault.free 4).1 =
        DB.mk [QueuedView.mk "d" 1] [] ∧
      ∃ r, (cronGET (some "s") none (DB.mk [QueuedView.mk "d" 1] []) Fault.free 4).2 = some r ∧
        r.status = 401 ∧ r.body.error ≠ none) :=
  ⟨by decide, by decide,
   (cronGET_bearer_auth "s" none (DB.mk [QueuedView.mk "d" 1] []) Fault.free 4
      (by decide) (by decide)).1⟩

/-- Program counter of one drain run: before the count, after the count
(carrying the counted value), after the insert, finished (carrying the
returned processed value). -/
inductive Phase
  | start
  | counted (n : Nat)
  | inserted (n : Nat)
  | done (n : Nat)
  deriving DecidableEq, Repr

/-- Shared state of two uncoordinated concurrent drain invocations. -/
structure Config where
  pA : Phase
  pB : Phase
  db : DB
  deriving DecidableEq, Repr

/-- One atomic SQL statement of a drain run against the shared database:
the count, the early return on zero, the copy insert, or the delete. -/
inductive DrainStep : Phase → DB → Phase → DB → Prop
  | count (db : DB) :
      DrainStep Phase.start db (Phase.counted db.view_queue.length) db
  | noop (db : DB) :
      DrainStep (Phase.counted 0) db (Phase.done 0) db
  | insert (n : Nat) (db : DB) (h : n ≠ 0) :
      DrainStep (Phase.counted n) db (Phase.inserted n) (insertViews db)
  | delete (n : Nat) (db : DB) :
      DrainStep (Phase.inserted n) db (Phase.done n)
        { view_queue := [], document_views := db.document_views }

/-- Interleaving: at each instant either drain performs its next
statement. -/
inductive Step : Config → Config → Prop
  | left {pA : Phase} {db : DB} {pA2 : Phase} {db2 : DB} (pB : Phase)
      (h : DrainStep pA db pA2 db2) : Step ⟨pA, pB, db⟩ ⟨pA2, pB, db2⟩
  | right {pB : Phase} {db : DB} {pB2 : Phase} {db2 : DB} (pA : Phase)
      (h : DrainStep pB db pB2 db2) : Step ⟨pA, pB, db⟩ ⟨pA, pB2, db2⟩

/-- Per-drain part of the interleaving invariant, relative to the initial
queue contents Q0. -/
def phaseInv (Q0 : List QueuedView) (db : DB) : Phase → Prop
  | Phase.start => True
  | Phase.counted n => n = 0 → db.view_queue = []
  | Phase.inserted _ => (∀ q ∈ Q0, copyRow q ∈ db.document_views) ∨ db.view_queue = []
  | Phase.done _ => db.view_queue = []

/-- Interleaving invariant: the queue is the initial one or empty, every
initial row is copied or still queued, and each drain satisfies its
phase condition. -/
def Inv (Q0 : List QueuedView) (c : Config) : Prop :=
  (c.db.view_queue = Q0 ∨ c.db.view_queue = []) ∧
  (∀ q ∈ Q0, copyRow q ∈ c.db.document_views ∨ q ∈ c.db.view_queue) ∧
  phaseInv Q0 c.db c.pA ∧ phaseInv Q0 c.db c.pB

lemma drainStep_db_facts {p : Phase} {db : DB} {p2 : Phase} {db2 : DB}
    (h : DrainStep p db p2 db2) :
    (∀ v ∈ db.document_views, v ∈ db2.document_views) ∧
    (db2.view_queue = db.view_queue ∨ db2.view_queue = []) := by
  cases h with
  | count db => exact ⟨fun v hv => hv, Or.inl rfl⟩
  | noop db => exact ⟨fun v hv => hv, Or.inl rfl⟩
  | insert n db hn =>
      refine ⟨fun v hv => ?_, Or.inl rfl⟩
      simp only [insertViews, List.mem_append]
      exact Or.inl hv
  | delete n db => exact ⟨fun v hv => hv, Or.inr rfl⟩

lemma phaseInv_mono {Q0 : List QueuedView} {db db2 : DB} {ph : Phase}
    (hv : ∀ v ∈ db.document_views, v ∈ db2.document_views)
    (hq : db.view_queue = [] → db2.view_queue = [])
    (h : phaseInv Q0 db ph) : phaseInv Q0 db2 ph := by
  cases ph with
  | start => trivial
  | counted n => exact fun hn => hq (h hn)
  | inserted n =>
      rcases h with h | h
      · exact Or.inl (fun q hmem => hv _ (h q hmem))
      · exact Or.inr (hq h)
  | done n => exact hq h

lemma drainStep_preserves {Q0 : List QueuedView} {p : Phase} {db : DB} {p2 : Phase} {db2 : DB}
    (h : DrainStep p db p2 db2)
    (hq0 : db.view_queue = Q0 ∨ db.view_queue = [])
    (hcov : ∀ q ∈ Q0, copyRow q ∈ db.document_views ∨ q ∈ db.view_queue)
    (hp : phaseInv Q0 db p) :
    (db2.view_queue = Q0 ∨ db2.view_queue = []) ∧
    (∀ q ∈ Q0, copyRow q ∈ db2.document_views ∨ q ∈ db2.view_queue) ∧
    phaseInv Q0 db2 p2 := by
  cases h with
  | count db =>
      exact ⟨hq0, hcov, fun hn => List.length_eq_zero.mp hn⟩
  | noop db =>
      exact ⟨hq0, hcov, hp rfl⟩
  | insert n db hn =>
      refine ⟨hq0, ?_, ?_⟩
      · intro q hmem
        rcases hcov q hmem with hc | hc
        · exact Or.inl (by simp only [insertViews, List.mem_append]; exact Or.inl hc)
        · exact Or.inr hc
      · rcases hq0 with he | he
        · refine Or.inl (fun q hmem => ?_)
          simp only [insertViews, List.mem_append]
          refine Or.inr (List.mem_map.mpr ⟨q, ?_, rfl⟩)
          exact ((sortQueue_perm db.view_queue).mem_iff).mpr (he ▸ hmem)
        · exact Or.inr he
  | delete n db =>
      refine ⟨Or.inr rfl, ?_, rfl⟩
      intro q hmem
      rcases hp with hcopied | hempty
      · exact Or.inl (hcopied q hmem)
      · rcases hcov q hmem with hc | hc
        · exact Or.inl hc
        · rw [hempty] at hc
          exact absurd hc (List.not_mem_nil q)

lemma step_preserves {Q0 : List QueuedView} {c c2 : Config}
    (h : Step c c2) (hinv : Inv Q0 c) : Inv Q0 c2 := by
  obtain ⟨hq0, hcov, hA, hB⟩ := hinv
  cases h with
  | left pB h =>
      obtain ⟨hq02, hcov2, hA2⟩ := drainStep_preserves h hq0 hcov hA
      obtain ⟨hv, hq⟩ := drainStep_db_facts h
      refine ⟨hq02, hcov2, hA2, phaseInv_mono hv ?_ hB⟩
      intro hemp
      rcases hq with hq | hq
      · rw [hq, hemp]
      · exact hq
  | right pA h =>
      obtain ⟨hq02, hcov2, hB2⟩ := drainStep_preserves h hq0 hcov hB
      obtain ⟨hv, hq⟩ := drainStep_db_facts h
      refine ⟨hq02, hcov2, phaseInv_mono hv ?_ hA, hB2⟩
      intro hemp
      rcases hq with hq | hq
      · rw [hq, hemp]
      · exact hq

lemma reach_inv (db0 : DB) (c : Config)
    (hsteps : Relation.ReflTransGen Step ⟨Phase.start, Phase.start, db0⟩ c) :
    Inv db0.view_queue c := by
  induction hsteps with
  | refl => exact ⟨Or.inl rfl, fun q hq => Or.inr hq, trivial, trivial⟩
  | tail _ hstep ih => exact step_preserves hstep ih

/-- C8: concurrent drains do not lose records.  Along every interleaving of
two uncoordinated drain runs (each doing count, copy-all, delete-all) that
both finish, every view_queue row present when the drains start ends up in
at least one document_views row. -/
theorem concurrent_drains_no_loss (db0 : DB) (c : Config) (nA nB : Nat)
    (hsteps : Relation.ReflTransGen Step ⟨Phase.start, Phase.start, db0⟩ c)
    (hA : c.pA = Phase.done nA) (_hB : c.pB = Phase.done nB) :
    ∀ q ∈ db0.view_queue, copyRow q ∈ c.db.document_views := by
  have hinv : Inv db0.view_queue c := reach_inv db0 c hsteps
  intro q hq
  rcases hinv.2.1 q hq with h | h
  · exact h
  · have hempty : c.db.view_queue = [] := by
      have hphase := hinv.2.2.1
      rw [hA] at hphase
      exact hphase
    rw [hempty] at h
    exact absurd h (List.not_mem_nil q)

theorem concurrent_drains_no_loss_witness :
    Relation.ReflTransGen Step
      ⟨Phase.start, Phase.start, DB.mk [QueuedView.mk "w" 2] []⟩
      ⟨Phase.done 1, Phase.done 0, DB.mk [] [ViewRecord.mk "w" 2]⟩ ∧
    (Config.mk (Phase.done 1) (Phase.done 0) (DB.mk [] [ViewRecord.mk "w" 2])).pA =
      Phase.done 1 ∧
    (Config.mk (Phase.done 1) (Phase.done 0) (DB.mk [] [ViewRecord.mk "w" 2])).pB =
      Phase.done 0 ∧
    QueuedView.mk "w" 2 ∈ (DB.mk [QueuedView.mk "w" 2] []).view_queue ∧
    copyRow (QueuedView.mk "w" 2) ∈
      (Config.mk (Phase.done 1) (Phase.done 0)
        (DB.mk [] [ViewRecord.mk "w" 2])).db.document_views := by
  have s1 : Step ⟨Phase.start, Phase.start, DB.mk [QueuedView.mk "w" 2] []⟩
      ⟨Phase.counted 1, Phase.start, DB.mk [QueuedView.mk "w" 2] []⟩ :=
    Step.left Phase.start (DrainStep.count (DB.mk [QueuedView.mk "w" 2] []))
  have s2 : Step ⟨Phase.counted 1, Phase.start, DB.mk [QueuedView.mk "w" 2] []⟩
      ⟨Phase.inserted 1, Phase.start, DB.mk [QueuedView.mk "w" 2] [ViewRecord.mk "w" 2]⟩ :=
    Step.left Phase.start
      (DrainStep.insert 1 (DB.mk [QueuedView.mk "w" 2] []) (by decide))
  have s3 : Step ⟨Phase.inserted 1, Phase.start,
        DB.mk [QueuedView.mk "w" 2] [ViewRecord.mk "w" 2]⟩
      ⟨Phase.done 1, Phase.start, DB.mk [] [ViewRecord.mk "w" 2]⟩ :=
    Step.left Phase.start
      (DrainStep.delete 1 (DB.mk [QueuedView.mk "w" 2] [ViewRecord.mk "w" 2]))
  have s4 : Step ⟨Phase.done 1, Phase.start, DB.mk [] [ViewRecord.mk "w" 2]⟩
      ⟨Phase.done 1, Phase.counted 0, DB.mk [] [ViewRecord.mk "w" 2]⟩ :=
    Step.right (Phase.done 1) (DrainStep.count (DB.mk [] [ViewRecord.mk "w" 2]))
  have s5 : Step ⟨Phase.done 1, Phase.counted 0, DB.mk [] [ViewRecord.mk "w" 2]⟩
      ⟨Phase.done 1, Phase.done 0, DB.mk [] [ViewRecord.mk "w" 2]⟩ :=
    Step.right (Phase.done 1) (DrainStep.noop (DB.mk [] [ViewRecord.mk "w" 2]))
  have htrace : Relation.ReflTransGen Step
      ⟨Phase.start, Phase.start, DB.mk [QueuedView.mk "w" 2] []⟩
      ⟨Phase.done 1, Phase.done 0, DB.mk [] [ViewRecord.mk "w" 2]⟩ :=
    Relation.ReflTransGen.tail
      (Relation.ReflTransGen.tail
        (Relation.ReflTransGen.tail
          (Relation.ReflTransGen.tail
            (Relation.ReflTransGen.tail Relation.ReflTransGen.refl s1) s2) s3) s4) s5
  refine ⟨htrace, rfl, rfl, List.mem_singleton.mpr rfl, ?_⟩
  exact concurrent_drains_no_loss (DB.mk [QueuedView.mk "w" 2] [])
    (Config.mk (Phase.done 1) (Phase.done 0) (DB.mk [] [ViewRecord.mk "w" 2])) 1 0
    htrace rfl rfl (QueuedView.mk "w" 2) (List.mem_singleton.mpr rfl)

/-- Double-quote character, written by code point to keep literals plain. -/
def quotChar : Char := Char.ofNat 34

/-- Apostrophe character, written by code point to keep literals plain. -/
def aposChar : Char := Char.ofNat 39

def ampEntity : List Char := ['&', 'a', 'm', 'p', ';']

def ltEntity : List Char := ['&', 'l', 't', ';']

def gtEntity : List Char := ['&', 'g', 't', ';']

def quotEntity : List Char := ['&', 'q', 'u', 'o', 't', ';']

def aposEntity : List Char := ['&', '#', 'x', '2', '7', ';']

/-- Global single-character replacement, the semantics of
String.prototype.replace with a one-character global regex. -/
def replaceChar (t : Char) (rep : List Char) : List Char → List Char
  | [] => []
  | c :: cs => (if c = t then rep else [c]) ++ replaceChar t rep cs

/-- Embedding of sanitize from src/app/actions.ts: five global
replacements applied in order, the ampersand first. -/
def sanitize (s : List Char) : List Char :=
  replaceChar aposChar aposEntity
    (replaceChar quotChar quotEntity
      (replaceChar '>' gtEntity
        (replaceChar '<' ltEntity
          (replaceChar '&' ampEntity s))))

/-- HTML entity each input character is turned into (identity on the
non-special characters). -/
def entityOf (c : Char) : List Char :=
  if c = '&' then ampEntity
  else if c = '<' then ltEntity
  else if c = '>' then gtEntity
  else if c = quotChar then quotEntity
  else if c = aposChar then aposEntity
  else [c]

/-- Absence of the four characters the sanitizer must remove. -/
def CleanStr (s : List Char) : Prop :=
  '<' ∉ s ∧ '>' ∉ s ∧ quotChar ∉ s ∧ aposChar ∉ s

instance (s : List Char) : Decidable (CleanStr s) := by
  unfold CleanStr
  infer_instance

lemma replaceChar_append (t : Char) (rep a b : List Char) :
    replaceChar t rep (a ++ b) = replaceChar t rep a ++ replaceChar t rep b := by
  induction a with
  | nil => rfl
  | cons c cs ih => simp [replaceChar, ih]

lemma sanitize_append (a b : List Char) :
    sanitize (a ++ b) = sanitize a ++ sanitize b := by
  simp [sanitize, replaceChar_append]

lemma sanitize_single (c : Char) : sanitize [c] = entityOf c := by
  by_cases h1 : c = '&'
  · subst h1; rfl
  · by_cases h2 : c = '<'
    · subst h2; rfl
    · by_cases h3 : c = '>'
      · subst h3; rfl
      · by_cases h4 : c = quotChar
        · subst h4; rfl
        · by_cases h5 : c = aposChar
          · subst h5; rfl
          · simp [sanitize, replaceChar, entityOf, h1, h2, h3, h4, h5]

lemma sanitize_eq_join (s : List Char) : sanitize s = (s.map entityOf).flatten := by
  induction s with
  | nil => rfl
  | cons c cs ih =>
      have hsplit : sanitize (c :: cs) = sanitize [c] ++ sanitize cs := by
        simpa using sanitize_append [c] cs
      rw [hsplit, sanitize_single, ih]
      simp

lemma entityOf_clean (c : Char) : CleanStr (entityOf c) := by
  unfold entityOf
  split_ifs with h1 h2 h3 h4 h5
  · decide
  · decide
  · decide
  · decide
  · decide
  · refine ⟨?_, ?_, ?_, ?_⟩ <;>
      simp only [List.mem_singleton] <;>
      intro hh
    · exact h2 hh.symm
    · exact h3 hh.symm
    · exact h4 hh.symm
    · exact h5 hh.symm

lemma sanitize_clean (s : List Char) : CleanStr (sanitize s) := by
  rw [sanitize_eq_join]
  refine ⟨?_, ?_, ?_, ?_⟩ <;> intro hmem <;>
    obtain ⟨l, hl, hx⟩ := List.mem_flatten.mp hmem <;>
    obtain ⟨c, _, rfl⟩ := List.mem_map.mp hl
  · exact (entityOf_clean c).1 hx
  · exact (entityOf_clean c).2.1 hx
  · exact (entityOf_clean c).2.2.1 hx
  · exact (entityOf_clean c).2.2.2 hx

/-- JavaScript whitespace recognised by String.prototype.trim (the ASCII
part: space, tab, line feed, vertical tab, form feed, carriage return). -/
def isJsWhitespace (c : Char) : Bool :=
  c == ' ' || c == Char.ofNat 9 || c == Char.ofNat 10 ||
  c == Char.ofNat 11 || c == Char.ofNat 12 || c == Char.ofNat 13

/-- Embedding of String.prototype.trim: drop whitespace at both ends. -/
def jsTrim (s : List Char) : List Char :=
  ((s.dropWhile isJsWhitespace).reverse.dropWhile isJsWhitespace).reverse

def MAX_COMMENT_LENGTH : Nat := 1500

def MAX_USERNAME_LENGTH : Nat := 20

/-- Row of the comments table, fields as selected by the comment
queries. -/
structure CommentRow where
  id : Nat
  document_id : String
  username : List Char
  content : List Char
  parent_id : Option Nat
  created_at : Nat
  likes : Nat
  deriving DecidableEq, Repr

/-- Embedding of addComment from src/app/actions.ts: return silently on an
empty username or content, trim both, reject over-length values with a
thrown error, then insert the sanitized values. -/
def addComment (db : List CommentRow) (documentId : String) (username content : List Char)
    (parentId : Option Nat) (newId now : Nat) : Except String (List CommentRow) :=
  if username = [] ∨ content = [] then Except.ok db
  else
    if MAX_USERNAME_LENGTH < (jsTrim username).length then
      Except.error "Username must be 20 characters or less"
    else if MAX_COMMENT_LENGTH < (jsTrim content).length then
      Except.error "Comment must be 1500 characters or less"
    else
      Except.ok (db ++
        [CommentRow.mk newId documentId (sanitize (jsTrim username))
          (sanitize (jsTrim content)) parentId now 0])

/-- C9: stored comments are HTML-escaped.  The sanitizer rewrites every
character to its HTML entity (ampersand first), so its output never
contains a literal angle bracket, double quote or apostrophe; and
addComment stores sanitize of the trimmed username and content, so every
row it adds is free of those characters. -/
theorem sanitize_escapes_and_addComment_clean :
    (∀ s : List Char, sanitize s = (s.map entityOf).flatten ∧ CleanStr (sanitize s)) ∧
    ∀ db documentId username content parentId newId now db2,
      addComment db documentId username content parentId newId now = Except.ok db2 →
      ∀ row ∈ db2, row ∈ db ∨ (CleanStr row.username ∧ CleanStr row.content) := by
  refine ⟨fun s => ⟨sanitize_eq_join s, sanitize_clean s⟩, ?_⟩
  intro db documentId username content parentId newId now db2 hok row hrow
  unfold addComment at hok
  split_ifs at hok with h1 h2 h3
  · cases hok
    exact Or.inl hrow
  · cases hok
    rcases List.mem_append.mp hrow with hr | hr
    · exact Or.inl hr
    · rcases List.mem_singleton.mp hr with rfl
      exact Or.inr ⟨sanitize_clean _, sanitize_clean _⟩

theorem sanitize_escapes_and_addComment_clean_witness :
    (addComment [] "doc" ['<', 'b'] ['h', 'i'] none 1 5 =
        Except.ok [CommentRow.mk 1 "doc" ['&', 'l', 't', ';', 'b'] ['h', 'i'] none 5 0]) ∧
    ∀ row ∈ [CommentRow.mk 1 "doc" ['&', 'l', 't', ';', 'b'] ['h', 'i'] none 5 0],
      row ∈ ([] : List CommentRow) ∨ (CleanStr row.username ∧ CleanStr row.content) :=
  ⟨rfl,
   sanitize_escapes_and_addComment_clean.2 [] "doc" ['<', 'b'] ['h', 'i'] none 1 5
     [CommentRow.mk 1 "doc" ['&', 'l', 't', ';', 'b'] ['h', 'i'] none 5 0] rfl⟩

/-- Comparator of the ascending re-sort of all comments (conversation
flow inside replies lists). -/
def byCreatedAsc (a b : CommentRow) : Prop :=
  a.created_at ≤ b.created_at

instance : DecidableRel byCreatedAsc :=
  fun a b => Nat.decLe a.created_at b.created_at

instance : IsTotal CommentRow byCreatedAsc :=
  ⟨fun a b => Nat.le_total a.created_at b.created_at⟩

instance : IsTrans CommentRow byCreatedAsc :=
  ⟨fun _ _ _ => Nat.le_trans⟩

/-- Comparator of the final root sort (newest first). -/
def byCreatedDesc (a b : CommentRow) : Prop :=
  b.created_at ≤ a.created_at

instance : DecidableRel byCreatedDesc :=
  fun a b => Nat.decLe b.created_at a.created_at

instance : IsTotal CommentRow byCreatedDesc :=
  ⟨fun a b => Nat.le_total b.created_at a.created_at⟩

instance : IsTrans CommentRow byCreatedDesc :=
  ⟨fun _ _ _ hab hbc => Nat.le_trans hbc hab⟩

/-- Identifiers of the fetched rows, the key set of the comment map. -/
def idsOf (rows : List CommentRow) : List Nat :=
  rows.map (fun r => r.id)

/-- Push a comment onto the replies list stored under key p (the
parent.replies.push of the source, on the first entry with that key). -/
def appendReply (m : List (Nat × List CommentRow)) (p : Nat) (c : CommentRow) :
    List (Nat × List CommentRow) :=
  match m with
  | [] => []
  | (k, v) :: rest =>
      if k = p then (k, v ++ [c]) :: rest else (k, v) :: appendReply rest p c

/-- Replies list stored under key p (empty when the key is absent). -/
def getReplies (m : List (Nat × List CommentRow)) (p : Nat) : List CommentRow :=
  match m with
  | [] => []
  | (k, v) :: rest => if k = p then v else getReplies rest p

/-- One iteration of the linking pass: a truthy parent_id found in the map
appends the comment to that parent replies list, anything else (null
parent, parent id 0, or a parent that was not fetched) appends it to the
root list. -/
def attachStep (ids : List Nat) (acc : List (Nat × List CommentRow) × List CommentRow)
    (c : CommentRow) : List (Nat × List CommentRow) × List CommentRow :=
  match c.parent_id with
  | some p =>
      if p ≠ 0 then
        if p ∈ ids then (appendReply acc.1 p c, acc.2)
        else (acc.1, acc.2 ++ [c])
      else (acc.1, acc.2 ++ [c])
  | none => (acc.1, acc.2 ++ [c])

/-- First pass of the threading: every fetched comment enters the map with
an empty replies list. -/
def initReplies (rows : List CommentRow) : List (Nat × List CommentRow) :=
  rows.map (fun r => (r.id, ([] : List CommentRow)))

/-- Embedding of the threading of getComments: sort all fetched rows by
created_at ascending, link each to its parent or to the root list, then
sort the roots by created_at descending.  The result is the replies store
together with the root list; the returned forest is the root list with the
replies lists of the store nested below each node. -/
def getComments (rows : List CommentRow) :
    List (Nat × List CommentRow) × List CommentRow :=
  let res := (List.insertionSort byCreatedAsc rows).foldl
    (attachStep (idsOf rows)) (initReplies rows, [])
  (res.1, List.insertionSort byCreatedDesc res.2)

/-- Condition under which the linking pass makes a row a root: parent_id
null, zero, or referencing no fetched id. -/
def rootCond (ids : List Nat) (c : CommentRow) : Bool :=
  match c.parent_id with
  | some p => if p ≠ 0 then decide (p ∉ ids) else true
  | none => true

/-- Condition under which the linking pass puts a row into the replies
list of p: a truthy parent_id equal to p and present among the fetched
ids. -/
def childCond (ids : List Nat) (p : Nat) (c : CommentRow) : Bool :=
  match c.parent_id with
  | some q => if q ≠ 0 then (if q ∈ ids then decide (q = p) else false) else false
  | none => false

def keysOf (m : List (Nat × List CommentRow)) : List Nat :=
  m.map (fun e => e.1)

def flatReplies (m : List (Nat × List CommentRow)) : List CommentRow :=
  (m.map (fun e => e.2)).flatten

lemma appendReply_keys (m : List (Nat × List CommentRow)) (p : Nat) (c : CommentRow) :
    keysOf (appendReply m p c) = keysOf m := by
  induction m with
  | nil => rfl
  | cons e rest ih =>
      obtain ⟨k, v⟩ := e
      by_cases hk : k = p
      · simp [appendReply, hk, keysOf]
      · simp only [appendReply, if_neg hk, keysOf, List.map_cons]
        exact congrArg (k :: ·) ih

lemma getReplies_appendReply_self (m : List (Nat × List CommentRow)) (p : Nat)
    (c : CommentRow) (hp : p ∈ keysOf m) :
    getReplies (appendReply m p c) p = getReplies m p ++ [c] := by
  induction m with
  | nil => exact absurd hp (List.not_mem_nil p)
  | cons e rest ih =>
      obtain ⟨k, v⟩ := e
      by_cases hk : k = p
      · simp [appendReply, getReplies, hk]
      · have hp0 : p ∈ k :: keysOf rest := by
          simpa only [keysOf, List.map_cons] using hp
        have hp2 : p ∈ keysOf rest := by
          rcases List.mem_cons.mp hp0 with h | h
          · exact absurd h.symm hk
          · exact h
        simp [appendReply, getReplies, hk, ih hp2]

lemma getReplies_appendReply_other (m : List (Nat × List CommentRow)) (q : Nat)
    (c : CommentRow) (p : Nat) (hne : q ≠ p) :
    getReplies (appendReply m q c) p = getReplies m p := by
  induction m with
  | nil => rfl
  | cons e rest ih =>
      obtain ⟨k, v⟩ := e
      by_cases hk : k = q
      · have hkp : ¬k = p := fun hh => hne (hk.symm.trans hh)
        simp only [appendReply, if_pos hk, getReplies, if_neg hkp]
      · by_cases hkp : k = p
        · simp only [appendReply, if_neg hk, getReplies, if_pos hkp]
        · simp only [appendReply, if_neg hk, getReplies, if_neg hkp]
          exact ih

lemma getReplies_initReplies (rows : List CommentRow) (p : Nat) :
    getReplies (initReplies rows) p = [] := by
  induction rows with
  | nil => rfl
  | cons r rest ih =>
      by_cases hk : r.id = p
      · simp [initReplies, getReplies, hk]
      · simpa [initReplies, getReplies, hk] using ih

lemma keysOf_initReplies (rows : List CommentRow) :
    keysOf (initReplies rows) = idsOf rows := by
  simp [keysOf, initReplies, idsOf]

lemma flatReplies_initReplies (rows : List CommentRow) :
    flatReplies (initReplies rows) = [] := by
  induction rows with
  | nil => rfl
  | cons r rest ih => simp [flatReplies, initReplies]

lemma attachStep_keys (ids : List Nat) (acc : List (Nat × List CommentRow) × List CommentRow)
    (c : CommentRow) : keysOf (attachStep ids acc c).1 = keysOf acc.1 := by
  unfold attachStep
  cases c.parent_id with
  | none => rfl
  | some p =>
      by_cases h0 : p = 0
      · simp [h0]
      · by_cases hin : p ∈ ids
        · simp [h0, hin, appendReply_keys]
        · simp [h0, hin]

lemma attachStep_roots (ids : List Nat) (acc : List (Nat × List CommentRow) × List CommentRow)
    (c : CommentRow) :
    (attachStep ids acc c).2 = acc.2 ++ (if rootCond ids c then [c] else []) := by
  unfold attachStep rootCond
  cases c.parent_id with
  | none => simp
  | some p =>
      by_cases h0 : p = 0
      · simp [h0]
      · by_cases hin : p ∈ ids
        · simp [h0, hin]
        · simp [h0, hin]

lemma attachStep_replies (ids : List Nat) (acc : List (Nat × List CommentRow) × List CommentRow)
    (c : CommentRow) (p : Nat) (hkeys : keysOf acc.1 = ids) :
    getReplies (attachStep ids acc c).1 p =
      getReplies acc.1 p ++ (if childCond ids p c then [c] else []) := by
  unfold attachStep childCond
  cases c.parent_id with
  | none => simp
  | some q =>
      by_cases h0 : q = 0
      · simp [h0]
      · by_cases hin : q ∈ ids
        · by_cases hqp : q = p
          · subst hqp
            simp [h0, hin, getReplies_appendReply_self acc.1 q c (by rw [hkeys]; exact hin)]
          · simp [h0, hin, hqp, getReplies_appendReply_other acc.1 q c p hqp]
        · simp [h0, hin]

lemma perm_append_singleton_mid (a b : List CommentRow) (c : CommentRow) :
    ((a ++ [c]) ++ b).Perm ((a ++ b) ++ [c]) := by
  rw [List.append_assoc, List.append_assoc]
  exact List.Perm.append_left a List.perm_append_comm

lemma flatReplies_appendReply (m : List (Nat × List CommentRow)) (p : Nat)
    (c : CommentRow) (hp : p ∈ keysOf m) :
    (flatReplies (appendReply m p c)).Perm (flatReplies m ++ [c]) := by
  induction m with
  | nil => exact absurd hp (List.not_mem_nil p)
  | cons e rest ih =>
      obtain ⟨k, v⟩ := e
      by_cases hk : k = p
      · simp only [appendReply, if_pos hk, flatReplies, List.map_cons, List.flatten_cons]
        exact perm_append_singleton_mid v _ c
      · have hp0 : p ∈ k :: keysOf rest := by
          simpa only [keysOf, List.map_cons] using hp
        have hp2 : p ∈ keysOf rest := by
          rcases List.mem_cons.mp hp0 with h | h
          · exact absurd h.symm hk
          · exact h
        simp only [appendReply, if_neg hk, flatReplies, List.map_cons, List.flatten_cons]
        have step : (v ++ flatReplies (appendReply rest p c)).Perm
            (v ++ (flatReplies rest ++ [c])) := List.Perm.append_left v (ih hp2)
        rw [← List.append_assoc] at step
        exact step

lemma attachStep_perm (ids : List Nat) (acc : List (Nat × List CommentRow) × List CommentRow)
    (c : CommentRow) (hkeys : keysOf acc.1 = ids) :
    ((attachStep ids acc c).2 ++ flatReplies (attachStep ids acc c).1).Perm
      ((acc.2 ++ flatReplies acc.1) ++ [c]) := by
  unfold attachStep
  cases c.parent_id with
  | none => exact perm_append_singleton_mid acc.2 (flatReplies acc.1) c
  | some q =>
      by_cases h0 : q = 0
      · simp only [h0]
        simp only [ne_eq, not_true_eq_false, if_false]
        exact perm_append_singleton_mid acc.2 (flatReplies acc.1) c
      · by_cases hin : q ∈ ids
        · simp only [ne_eq, h0, not_false_eq_true, if_true, if_pos hin]
          have hflat := flatReplies_appendReply acc.1 q c (by rw [hkeys]; exact hin)
          have step := List.Perm.append_left acc.2 hflat
          rw [← List.append_assoc] at step
          exact step
        · simp only [ne_eq, h0, not_false_eq_true, if_true, if_neg hin]
          exact perm_append_singleton_mid acc.2 (flatReplies acc.1) c

lemma foldl_attach_keys (ids : List Nat) :
    ∀ (l : List CommentRow) (acc : List (Nat × List CommentRow) × List CommentRow),
      keysOf (l.foldl (attachStep ids) acc).1 = keysOf acc.1 := by
  intro l
  induction l with
  | nil => intro acc; rfl
  | cons c cs ih =>
      intro acc
      rw [List.foldl_cons, ih]
      exact attachStep_keys ids acc c

lemma foldl_attach_roots (ids : List Nat) :
    ∀ (l : List CommentRow) (acc : List (Nat × List CommentRow) × List CommentRow),
      (l.foldl (attachStep ids) acc).2 = acc.2 ++ l.filter (rootCond ids) := by
  intro l
  induction l with
  | nil => intro acc; simp
  | cons c cs ih =>
      intro acc
      rw [List.foldl_cons, ih, attachStep_roots]
      by_cases hr : rootCond ids c
      · simp [hr, List.filter_cons]
      · simp [hr, List.filter_cons]

lemma foldl_attach_replies (ids : List Nat) (p : Nat) :
    ∀ (l : List CommentRow) (acc : List (Nat × List CommentRow) × List CommentRow),
      keysOf acc.1 = ids →
      getReplies (l.foldl (attachStep ids) acc).1 p =
        getReplies acc.1 p ++ l.filter (childCond ids p) := by
  intro l
  induction l with
  | nil => intro acc _; simp
  | cons c cs ih =>
      intro acc hkeys
      rw [List.foldl_cons, ih _ (by rw [attachStep_keys]; exact hkeys),
        attachStep_replies ids acc c p hkeys]
      by_cases hc : childCond ids p c
      · simp [hc, List.filter_cons]
      · simp [hc, List.filter_cons]

lemma foldl_attach_perm (ids : List Nat) :
    ∀ (l : List CommentRow) (acc : List (Nat × List CommentRow) × List CommentRow),
      keysOf acc.1 = ids →
      ((l.foldl (attachStep ids) acc).2 ++ flatReplies (l.foldl (attachStep ids) acc).1).Perm
        ((acc.2 ++ flatReplies acc.1) ++ l) := by
  intro l
  induction l with
  | nil => intro acc _; simp
  | cons c cs ih =>
      intro acc hkeys
      rw [List.foldl_cons]
      have h1 := ih (attachStep ids acc c) (by rw [attachStep_keys]; exact hkeys)
      have h2 := (attachStep_perm ids acc c hkeys).append_right cs
      have h3 := h1.trans h2
      have h4 : ((acc.2 ++ flatReplies acc.1) ++ [c]) ++ cs =
          (acc.2 ++ flatReplies acc.1) ++ (c :: cs) := by
        rw [List.append_assoc]
        rfl
      rw [h4] at h3
      exact h3

lemma getReplies_of_mem (m : List (Nat × List CommentRow)) (hnd : (keysOf m).Nodup)
    (e : Nat × List CommentRow) (he : e ∈ m) : getReplies m e.1 = e.2 := by
  induction m with
  | nil => exact absurd he (List.not_mem_nil e)
  | cons f rest ih =>
      obtain ⟨k, v⟩ := f
      have hnd0 : (k :: keysOf rest).Nodup := by
        simpa only [keysOf, List.map_cons] using hnd
      obtain ⟨hknotin, hndrest⟩ := List.nodup_cons.mp hnd0
      rcases List.mem_cons.mp he with rfl | he2
      · simp [getReplies]
      · have hk : k ≠ e.1 := by
          intro hkk
          refine hknotin ?_
          rw [hkk]
          exact List.mem_map.mpr ⟨e, he2, rfl⟩
        simp only [getReplies, if_neg hk]
        exact ih hndrest he2

/-- C10: comment threading partitions the rows.  For every fetched row set
with distinct ids, the threading places each row exactly once (the root
list plus all replies lists together are a permutation of the rows), a row
goes to the root list exactly when its parent_id is null, zero or not a
fetched id and otherwise into the replies list of its parent, the roots
are sorted by created_at descending and every replies list by created_at
ascending. -/
theorem getComments_partitions (rows : List CommentRow) (hids : (idsOf rows).Nodup) :
    ((getComments rows).2 ++ flatReplies (getComments rows).1).Perm rows ∧
    (∀ r ∈ rows,
      if rootCond (idsOf rows) r then r ∈ (getComments rows).2
      else ∃ p, r.parent_id = some p ∧ r ∈ getReplies (getComments rows).1 p) ∧
    List.Sorted byCreatedDesc (getComments rows).2 ∧
    ∀ e ∈ (getComments rows).1, List.Sorted byCreatedAsc e.2 := by
  have hkeys0 : keysOf (initReplies rows) = idsOf rows := keysOf_initReplies rows
  have hfst : (getComments rows).1 =
      ((List.insertionSort byCreatedAsc rows).foldl (attachStep (idsOf rows))
        (initReplies rows, [])).1 := rfl
  have hsnd : (getComments rows).2 = List.insertionSort byCreatedDesc
      ((List.insertionSort byCreatedAsc rows).foldl (attachStep (idsOf rows))
        (initReplies rows, [])).2 := rfl
  have hroots : ((List.insertionSort byCreatedAsc rows).foldl (attachStep (idsOf rows))
      (initReplies rows, [])).2 =
      (List.insertionSort byCreatedAsc rows).filter (rootCond (idsOf rows)) := by
    rw [foldl_attach_roots]
    simp
  have hreplies : ∀ p, getReplies ((List.insertionSort byCreatedAsc rows).foldl
      (attachStep (idsOf rows)) (initReplies rows, [])).1 p =
      (List.insertionSort byCreatedAsc rows).filter (childCond (idsOf rows) p) := by
    intro p
    rw [foldl_attach_replies (idsOf rows) p _ _ hkeys0, getReplies_initReplies]
    simp
  have hkeys : keysOf ((List.insertionSort byCreatedAsc rows).foldl
      (attachStep (idsOf rows)) (initReplies rows, [])).1 = idsOf rows := by
    rw [foldl_attach_keys]
    exact hkeys0
  have hsortmem : ∀ r ∈ rows, r ∈ List.insertionSort byCreatedAsc rows := by
    intro r hr
    exact (List.perm_insertionSort byCreatedAsc rows).mem_iff.mpr hr
  refine ⟨?_, ?_, ?_, ?_⟩
  · have h2 := foldl_attach_perm (idsOf rows) (List.insertionSort byCreatedAsc rows)
      (initReplies rows, []) hkeys0
    have h2b : (((List.insertionSort byCreatedAsc rows).foldl (attachStep (idsOf rows))
        (initReplies rows, [])).2 ++
        flatReplies ((List.insertionSort byCreatedAsc rows).foldl (attachStep (idsOf rows))
          (initReplies rows, [])).1).Perm (List.insertionSort byCreatedAsc rows) := by
      have hflat : flatReplies (initReplies rows, ([] : List CommentRow)).1 = [] :=
        flatReplies_initReplies rows
      rw [hflat] at h2
      simpa using h2
    rw [hfst, hsnd]
    have h1 : (List.insertionSort byCreatedDesc
        ((List.insertionSort byCreatedAsc rows).foldl (attachStep (idsOf rows))
          (initReplies rows, [])).2 ++
        flatReplies ((List.insertionSort byCreatedAsc rows).foldl (attachStep (idsOf rows))
          (initReplies rows, [])).1).Perm
        (((List.insertionSort byCreatedAsc rows).foldl (attachStep (idsOf rows))
          (initReplies rows, [])).2 ++
        flatReplies ((List.insertionSort byCreatedAsc rows).foldl (attachStep (idsOf rows))
          (initReplies rows, [])).1) :=
      (List.perm_insertionSort byCreatedDesc _).append_right _
    exact h1.trans (h2b.trans (List.perm_insertionSort byCreatedAsc rows))
  · intro r hr
    by_cases hc : rootCond (idsOf rows) r
    · rw [if_pos hc, hsnd]
      refine (List.perm_insertionSort byCreatedDesc _).mem_iff.mpr ?_
      rw [hroots]
      exact List.mem_filter.mpr ⟨hsortmem r hr, hc⟩
    · rw [if_neg hc]
      cases hpid : r.parent_id with
      | none => exact absurd (by simp [rootCond, hpid]) hc
      | some p =>
          by_cases h0 : p = 0
          · exact absurd (by simp [rootCond, hpid, h0]) hc
          · have hin : p ∈ idsOf rows := by
              by_contra hnotin
              exact hc (by simp [rootCond, hpid, h0, hnotin])
            have hchild : childCond (idsOf rows) p r = true := by
              simp [childCond, hpid, h0, hin]
            refine ⟨p, rfl, ?_⟩
            rw [hfst, hreplies p]
            exact List.mem_filter.mpr ⟨hsortmem r hr, hchild⟩
  · rw [hsnd]
    exact List.sorted_insertionSort byCreatedDesc _
  · intro e he
    rw [hfst] at he
    have hnd : (keysOf ((List.insertionSort byCreatedAsc rows).foldl
        (attachStep (idsOf rows)) (initReplies rows, [])).1).Nodup := by
      rw [hkeys]
      exact hids
    have heq := getReplies_of_mem _ hnd e he
    rw [hreplies e.1] at heq
    rw [← heq]
    exact (List.sorted_insertionSort byCreatedAsc rows).sublist (List.filter_sublist _)

/-- Sample fetched row set: one root comment and one reply to it. -/
def sampleRows : List CommentRow :=
  [CommentRow.mk 1 "doc" [] [] none 10 0, CommentRow.mk 2 "doc" [] [] (some 1) 20 0]

theorem getComments_partitions_witness :
    (idsOf sampleRows).Nodup ∧
    (((getComments sampleRows).2 ++ flatReplies (getComments sampleRows).1).Perm sampleRows ∧
    (∀ r ∈ sampleRows,
      if rootCond (idsOf sampleRows) r then r ∈ (getComments sampleRows).2
      else ∃ p, r.parent_id = some p ∧ r ∈ getReplies (getComments sampleRows).1 p) ∧
    List.Sorted byCreatedDesc (getComments sampleRows).2 ∧
    ∀ e ∈ (getComments sampleRows).1, List.Sorted byCreatedAsc e.2) :=
  ⟨by decide, getComments_partitions sampleRows (by decide)⟩

end Site
